import Mathlib

/-!
Shallow embedding of the vault / crypto layer of the `mybench` repository
(`internal/database/schema.go` crypto section and the `App` master-password
methods), together with proofs of the specification's claims about it.

Byte strings are modelled as `List Nat` with every element below 256.
The external primitives used by the code — the AES-256 block cipher obtained
from `aes.NewCipher(key)` and the GF(2^128) multiplication inside GHASH —
are parameters of the embedding; everything the repository itself does
(base64, the GCM composition, nonce/tag layout, error taxonomy, the
password-hash comparison and the unlock flow) is modelled concretely.
-/

namespace MyBench

/-- A list of naturals is a byte string: every element is below 256. -/
def Bytes (l : List Nat) : Prop := ∀ b ∈ l, b < 256

instance : DecidablePred Bytes := fun l =>
  List.decidableBAll (fun b => b < 256) l

/-! ### base64 (Go `encoding/base64` StdEncoding, as used by the repository) -/

/-- ASCII code of the standard-alphabet character for a sextet `s < 64`. -/
def sextetChar (s : Nat) : Nat :=
  if s < 26 then 65 + s
  else if s < 52 then 97 + (s - 26)
  else if s < 62 then 48 + (s - 52)
  else if s = 62 then 43
  else 47

/-- Inverse alphabet lookup: the sextet encoded by ASCII character `c`,
`none` when `c` is not in the standard alphabet. -/
def sextetOfChar (c : Nat) : Option Nat :=
  if 65 ≤ c ∧ c ≤ 90 then some (c - 65)
  else if 97 ≤ c ∧ c ≤ 122 then some (26 + (c - 97))
  else if 48 ≤ c ∧ c ≤ 57 then some (52 + (c - 48))
  else if c = 43 then some 62
  else if c = 47 then some 63
  else none

/-- ASCII code of the base64 padding character `=`. -/
def padChar : Nat := 61

/-- `base64.StdEncoding.EncodeToString`: three input bytes become four
alphabet characters; a final group of one or two bytes is padded with `=`. -/
def encodeB64 : List Nat → List Nat
  | [] => []
  | [b0] => [sextetChar (b0 / 4), sextetChar (b0 % 4 * 16), padChar, padChar]
  | [b0, b1] => [sextetChar (b0 / 4), sextetChar (b0 % 4 * 16 + b1 / 16),
      sextetChar (b1 % 16 * 4), padChar]
  | b0 :: b1 :: b2 :: rest =>
      sextetChar (b0 / 4) :: sextetChar (b0 % 4 * 16 + b1 / 16) ::
      sextetChar (b1 % 16 * 4 + b2 / 64) :: sextetChar (b2 % 64) :: encodeB64 rest

/-- `base64.StdEncoding.DecodeString`: four characters become three bytes;
`=` padding is accepted only at the very end, in the last group; any
character outside the alphabet, or a length that is not a multiple of
four, is a decode error (`none`). -/
def decodeB64 : List Nat → Option (List Nat)
  | [] => some []
  | c0 :: c1 :: c2 :: c3 :: rest =>
      match sextetOfChar c0, sextetOfChar c1 with
      | some s0, some s1 =>
        if c3 = padChar then
          if rest ≠ [] then none
          else if c2 = padChar then some [s0 * 4 + s1 / 16]
          else match sextetOfChar c2 with
            | some s2 => some [s0 * 4 + s1 / 16, s1 % 16 * 16 + s2 / 4]
            | none => none
        else
          match sextetOfChar c2, sextetOfChar c3 with
          | some s2, some s3 =>
            match decodeB64 rest with
            | some tail =>
                some ((s0 * 4 + s1 / 16) :: (s1 % 16 * 16 + s2 / 4) ::
                  (s2 % 4 * 64 + s3) :: tail)
            | none => none
          | _, _ => none
      | _, _ => none
  | _ => none

theorem sextetOfChar_sextetChar : ∀ s < 64, sextetOfChar (sextetChar s) = some s := by
  decide

theorem sextetChar_ne_padChar : ∀ s < 64, sextetChar s ≠ padChar := by
  decide

/-- Decoding inverts encoding on byte strings. -/
theorem decodeB64_encodeB64 : ∀ l : List Nat, Bytes l → decodeB64 (encodeB64 l) = some l := by
  intro l
  induction l using encodeB64.induct with
  | case1 =>
      intro _; simp [encodeB64, decodeB64]
  | case2 b0 =>
      intro hB
      have h0 : b0 < 256 := hB b0 (by simp)
      have hs0 : b0 / 4 < 64 := by omega
      have hs1 : b0 % 4 * 16 < 64 := by omega
      simp [encodeB64, decodeB64, sextetOfChar_sextetChar _ hs0,
        sextetOfChar_sextetChar _ hs1]
      omega
  | case3 b0 b1 =>
      intro hB
      have h0 : b0 < 256 := hB b0 (by simp)
      have h1 : b1 < 256 := hB b1 (by simp)
      have hs0 : b0 / 4 < 64 := by omega
      have hs1 : b0 % 4 * 16 + b1 / 16 < 64 := by omega
      have hs2 : b1 % 16 * 4 < 64 := by omega
      simp [encodeB64, decodeB64, sextetOfChar_sextetChar _ hs0,
        sextetOfChar_sextetChar _ hs1, sextetOfChar_sextetChar _ hs2,
        sextetChar_ne_padChar _ hs2]
      constructor
      · omega
      · omega
  | case4 b0 b1 b2 rest ih =>
      intro hB
      have h0 : b0 < 256 := hB b0 (by simp)
      have h1 : b1 < 256 := hB b1 (by simp)
      have h2 : b2 < 256 := hB b2 (by simp)
      have hrest : Bytes rest := fun b hb => hB b (by simp [Bytes, hb])
      have hs0 : b0 / 4 < 64 := by omega
      have hs1 : b0 % 4 * 16 + b1 / 16 < 64 := by omega
      have hs2 : b1 % 16 * 4 + b2 / 64 < 64 := by omega
      have hs3 : b2 % 64 < 64 := by omega
      simp [encodeB64, decodeB64, sextetOfChar_sextetChar _ hs0,
        sextetOfChar_sextetChar _ hs1, sextetOfChar_sextetChar _ hs2,
        sextetOfChar_sextetChar _ hs3,
        sextetChar_ne_padChar _ hs3, ih hrest]
      refine ⟨by omega, by omega, by omega⟩

/-- Encoding a non-empty byte string is non-empty. -/
theorem encodeB64_ne_nil {l : List Nat} (h : l ≠ []) : encodeB64 l ≠ [] := by
  match l with
  | [] => exact absurd rfl h
  | [b0] => simp [encodeB64]
  | [b0, b1] => simp [encodeB64]
  | b0 :: b1 :: b2 :: rest => simp [encodeB64]

/-! ### AES-256-GCM (Go `crypto/aes` + `crypto/cipher.NewGCM`, as used by the repository)

`cipher.NewGCM(aes.NewCipher(key))` is modelled per NIST SP 800-38D with a
12-byte nonce and a 16-byte tag, generically in the two external primitives:
the keyed block cipher `E : List Nat → List Nat` (AES-256 under the vault
key) and the GF(2^128) multiplication `gmul` used by GHASH. -/

/-- `gcm.NonceSize()`: 12 bytes. -/
def nonceSize : Nat := 12

/-- GCM authentication-tag size: 16 bytes. -/
def tagSize : Nat := 16

/-- XOR of two byte strings, truncated to the shorter input (CTR-mode use). -/
def xorB (a b : List Nat) : List Nat := List.zipWith (fun x y => x ^^^ y) a b

/-- The all-zero 16-byte block. -/
def zeroBlock : List Nat := List.replicate 16 0

/-- Big-endian 4-byte encoding of `n % 2^32`. -/
def be32 (n : Nat) : List Nat :=
  [n / 2 ^ 24 % 256, n / 2 ^ 16 % 256, n / 2 ^ 8 % 256, n % 256]

/-- Big-endian 8-byte encoding of `n % 2^64`. -/
def be64 (n : Nat) : List Nat :=
  [n / 2 ^ 56 % 256, n / 2 ^ 48 % 256, n / 2 ^ 40 % 256, n / 2 ^ 32 % 256,
   n / 2 ^ 24 % 256, n / 2 ^ 16 % 256, n / 2 ^ 8 % 256, n % 256]

/-- GCM counter block: the 12-byte nonce followed by a 32-bit big-endian
counter. `ctrBlock nonce 1` is the pre-counter block J0. -/
def ctrBlock (nonce : List Nat) (j : Nat) : List Nat := nonce ++ be32 (j % 2 ^ 32)

/-- Zero-pad a partial block (at most 16 bytes) up to the 16-byte block size. -/
def padBlock (b : List Nat) : List Nat := b ++ List.replicate (16 - b.length) 0

/-- GHASH length block for empty additional data and a `ctLen`-byte ciphertext:
64-bit big-endian bit lengths of A and C. -/
def lenBlock (ctLen : Nat) : List Nat := be64 0 ++ be64 (8 * ctLen)

/-- A well-formed 16-byte block. -/
def Block16 (l : List Nat) : Prop := l.length = 16 ∧ Bytes l

/-- The block-cipher parameter maps 16-byte blocks to 16-byte blocks
(true of AES-256 under any 32-byte key). -/
def IsBlockCipher (E : List Nat → List Nat) : Prop :=
  ∀ b, Block16 b → Block16 (E b)

/-- The GHASH multiplication parameter maps pairs of 16-byte blocks to
16-byte blocks (true of multiplication in GF(2^128)). -/
def IsGFMul (gmul : List Nat → List Nat → List Nat) : Prop :=
  ∀ x y, Block16 x → Block16 y → Block16 (gmul x y)

/-- GHASH Horner fold over the 16-byte blocks of `l` (the last block
zero-padded), starting from accumulator `Y`:
`Y ← (Y ⊕ X_i) · H` for each block `X_i`. -/
def ghashCore (gmul : List Nat → List Nat → List Nat) (H Y l : List Nat) :
    List Nat :=
  if h : l = [] then Y
  else ghashCore gmul H (gmul (xorB Y (padBlock (l.take 16))) H) (l.drop 16)
termination_by l.length
decreasing_by
  simp only [List.length_drop]
  have : 0 < l.length := List.length_pos.mpr h
  omega

/-- The GCM authentication tag over ciphertext `ct` (no additional data):
`GHASH_H(C ∥ len) ⊕ E(J0)` with `H = E(0^128)` and `J0 = nonce ∥ 0^31 1`. -/
def gcmTag (E : List Nat → List Nat) (gmul : List Nat → List Nat → List Nat)
    (nonce ct : List Nat) : List Nat :=
  let H := E zeroBlock
  let Y := ghashCore gmul H zeroBlock ct
  let S := gmul (xorB Y (lenBlock ct.length)) H
  xorB S (E (ctrBlock nonce 1))

/-- The first `n` bytes of the CTR keystream: blocks `E(nonce ∥ ⟨2⟩), E(nonce ∥ ⟨3⟩), …`. -/
def keystream (E : List Nat → List Nat) (nonce : List Nat) (n : Nat) : List Nat :=
  (((List.range ((n + 15) / 16)).map fun i => E (ctrBlock nonce (2 + i))).flatten).take n

/-- `gcm.Seal(nil, nonce, plaintext, nil)`: CTR-encrypted plaintext with the
16-byte authentication tag appended. -/
def gcmSeal (E : List Nat → List Nat) (gmul : List Nat → List Nat → List Nat)
    (nonce p : List Nat) : List Nat :=
  let ct := xorB p (keystream E nonce p.length)
  ct ++ gcmTag E gmul nonce ct

/-- `gcm.Open(nil, nonce, data, nil)`: reject when `data` cannot even hold a
tag; otherwise split off the final 16-byte tag, recompute it over the
ciphertext, and decrypt only on an exact tag match. Both failure modes are
Go's single `cipher: message authentication failed` error (`none`). -/
def gcmOpen (E : List Nat → List Nat) (gmul : List Nat → List Nat → List Nat)
    (nonce data : List Nat) : Option (List Nat) :=
  if data.length < tagSize then none
  else
    let ct := data.take (data.length - tagSize)
    let tag := data.drop (data.length - tagSize)
    if tag = gcmTag E gmul nonce ct then some (xorB ct (keystream E nonce ct.length))
    else none

/-! ### The repository's crypto layer (`internal/database/schema.go`) -/

/-- `Vault` holds the derived encryption key in memory. -/
structure Vault where
  key : List Nat
deriving DecidableEq

/-- `NewVault` derives an encryption key from the master password and salt.
`idKey` is the external `argon2.IDKey(·, ·, 1, 64*1024, 4, 32)` primitive. -/
def NewVault (idKey : List Nat → List Nat → List Nat)
    (password salt : List Nat) : Vault :=
  { key := idKey password salt }

/-- `HashPassword`: the Argon2id digest of the master password under `salt`,
base64-encoded for storage. -/
def HashPassword (idKey : List Nat → List Nat → List Nat)
    (password salt : List Nat) : List Nat :=
  encodeB64 (idKey password salt)

/-- `subtle.ConstantTimeCompare`: 1 when the two byte strings have equal
length and contents, 0 otherwise. -/
def constantTimeCompare (x y : List Nat) : Nat :=
  if x.length = y.length then (if x = y then 1 else 0) else 0

/-- `VerifyPassword` checks a password against a stored hash; any decode
failure of the stored hash means "does not match". -/
def VerifyPassword (idKey : List Nat → List Nat → List Nat)
    (password salt storedHash : List Nat) : Bool :=
  match decodeB64 storedHash with
  | none => false
  | some decoded => constantTimeCompare (idKey password salt) decoded == 1

/-- The error cases of `Vault.Decrypt`, in the order the code can produce
them: the `base64.DecodeString` error, `errors.New "ciphertext too short"`,
and `errors.New "decryption failed: wrong master password or corrupted
data"`. -/
inductive DecryptError
  | invalidBase64
  | ciphertextTooShort
  | decryptionFailed
deriving DecidableEq

/-- The spec's `MalformedBlob` category: the stored ciphertext is not valid
base64 or is shorter than the nonce length. -/
def DecryptError.isMalformedBlob : DecryptError → Bool
  | .invalidBase64 => true
  | .ciphertextTooShort => true
  | .decryptionFailed => false

/-- `Vault.Encrypt`: empty plaintext short-circuits to the empty string;
otherwise AES-256-GCM under the vault key with the freshly drawn `nonce`
prepended, base64-encoded. `aes key` is the external AES-256 block cipher
keyed by `key`; `gmul` is GHASH's GF(2^128) multiplication. -/
def Vault.encrypt (aes : List Nat → List Nat → List Nat)
    (gmul : List Nat → List Nat → List Nat) (v : Vault)
    (nonce plaintext : List Nat) : List Nat :=
  if plaintext = [] then []
  else encodeB64 (nonce ++ gcmSeal (aes v.key) gmul nonce plaintext)

/-- `Vault.Decrypt`: empty input short-circuits to the empty string;
otherwise base64-decode, reject data shorter than the nonce, split off the
12-byte nonce and authenticate-decrypt the rest. -/
def Vault.decrypt (aes : List Nat → List Nat → List Nat)
    (gmul : List Nat → List Nat → List Nat) (v : Vault)
    (encoded : List Nat) : Except DecryptError (List Nat) :=
  if encoded = [] then .ok []
  else
    match decodeB64 encoded with
    | none => .error .invalidBase64
    | some data =>
      if data.length < nonceSize then .error .ciphertextTooShort
      else
        match gcmOpen (aes v.key) gmul (data.take nonceSize) (data.drop nonceSize) with
        | none => .error .decryptionFailed
        | some plaintext => .ok plaintext

/-! ### The `App` master-password methods (`app.go`) -/

/-- The unlock flow can fail before password verification: the store's
`GetConfig` lookups are modelled as always succeeding (a healthy database),
so the only early error is base64 decoding of the stored salt. -/
inductive UnlockError
  | saltDecode
deriving DecidableEq

/-- The slice of `App` state the unlock flow touches: the `app_config`
key-value table (`GetConfig` returns `""` for a missing key, here the empty
byte string) and the in-memory vault, `none` while locked. -/
structure App where
  config : String → List Nat
  vault : Option Vault

/-- `App.UnlockVault`: read the persisted salt and hash, verify the
password, and construct the vault only on a match; a failed verification is
the boolean `false` with a `nil` error and no state change. -/
def App.unlockVault (idKey : List Nat → List Nat → List Nat) (a : App)
    (password : List Nat) : Except UnlockError Bool × App :=
  match decodeB64 (a.config "master_salt") with
  | none => (.error .saltDecode, a)
  | some salt =>
    if VerifyPassword idKey password salt (a.config "master_hash") then
      (.ok true, { a with vault := some (NewVault idKey password salt) })
    else
      (.ok false, a)

/-! ### Byte-string and XOR lemmas -/

theorem bytes_append {a b : List Nat} (ha : Bytes a) (hb : Bytes b) :
    Bytes (a ++ b) := by
  intro x hx
  rcases List.mem_append.mp hx with h | h
  · exact ha x h
  · exact hb x h

theorem bytes_take {l : List Nat} (h : Bytes l) (n : Nat) : Bytes (l.take n) :=
  fun x hx => h x (List.mem_of_mem_take hx)

theorem bytes_drop {l : List Nat} (h : Bytes l) (n : Nat) : Bytes (l.drop n) :=
  fun x hx => h x (List.mem_of_mem_drop hx)

theorem bytes_replicate (n k : Nat) (h : k < 256) : Bytes (List.replicate n k) := by
  intro x hx
  rw [List.eq_of_mem_replicate hx]
  exact h

theorem bytes_set {l : List Nat} (h : Bytes l) {b : Nat} (hb : b < 256) (i : Nat) :
    Bytes (l.set i b) := by
  intro x hx
  rcases List.mem_or_eq_of_mem_set hx with h' | rfl
  · exact h x h'
  · exact hb

theorem xorB_length (a b : List Nat) : (xorB a b).length = min a.length b.length := by
  simp [xorB]

theorem bytes_xorB {a b : List Nat} (ha : Bytes a) (hb : Bytes b) :
    Bytes (xorB a b) := by
  induction a generalizing b with
  | nil => intro x hx; simp [xorB] at hx
  | cons x xs ih =>
      cases b with
      | nil => intro y hy; simp [xorB] at hy
      | cons y ys =>
          intro z hz
          simp only [xorB, List.zipWith_cons_cons, List.mem_cons] at hz
          rcases hz with rfl | hz
          · have hx' : x < 2 ^ 8 := by have := ha x (by simp); omega
            have hy' : y < 2 ^ 8 := by have := hb y (by simp); omega
            have := Nat.xor_lt_two_pow hx' hy'
            omega
          · exact ih (fun u hu => ha u (by simp [hu]))
              (fun u hu => hb u (by simp [hu])) z hz

/-- XOR-ing twice with the same keystream restores the plaintext. -/
theorem xorB_xorB {p k : List Nat} (h : p.length ≤ k.length) :
    xorB (xorB p k) k = p := by
  induction p generalizing k with
  | nil => simp [xorB]
  | cons x xs ih =>
      cases k with
      | nil => simp at h
      | cons y ys =>
          simp only [xorB, List.zipWith_cons_cons, List.cons.injEq]
          refine ⟨Nat.xor_cancel_right y x, ?_⟩
          exact ih (by simpa using h)

theorem xorB_inj_right {a b c : List Nat} (hb : b.length = a.length)
    (hc : c.length = a.length) (h : xorB a b = xorB a c) : b = c := by
  induction a generalizing b c with
  | nil =>
      cases b <;> cases c <;> simp_all
  | cons x xs ih =>
      cases b with
      | nil => simp at hb
      | cons y ys =>
          cases c with
          | nil => simp at hc
          | cons z zs =>
              simp only [xorB, List.zipWith_cons_cons, List.cons.injEq] at h
              have h1 : y = z := Nat.xor_right_inj.mp h.1
              have h2 : ys = zs := ih (by simpa using hb) (by simpa using hc) h.2
              rw [h1, h2]

theorem xorB_inj_left {a b c : List Nat} (ha : a.length = c.length)
    (hb : b.length = c.length) (h : xorB a c = xorB b c) : a = b := by
  induction c generalizing a b with
  | nil =>
      cases a <;> cases b <;> simp_all
  | cons z zs ih =>
      cases a with
      | nil => simp at ha
      | cons x xs =>
          cases b with
          | nil => simp at hb
          | cons y ys =>
              simp only [xorB, List.zipWith_cons_cons, List.cons.injEq] at h
              have h1 : x = y := Nat.xor_left_inj.mp h.1
              have h2 : xs = ys := ih (by simpa using ha) (by simpa using hb) h.2
              rw [h1, h2]

/-! ### Well-formedness of the GCM building blocks -/

theorem block16_zeroBlock : Block16 zeroBlock :=
  ⟨by simp [zeroBlock], bytes_replicate 16 0 (by omega)⟩

theorem be32_length (n : Nat) : (be32 n).length = 4 := by simp [be32]

theorem bytes_be32 (n : Nat) : Bytes (be32 n) := by
  intro x hx
  simp only [be32, List.mem_cons, List.not_mem_nil, or_false] at hx
  rcases hx with rfl | rfl | rfl | rfl <;> omega

theorem be64_length (n : Nat) : (be64 n).length = 8 := by simp [be64]

theorem bytes_be64 (n : Nat) : Bytes (be64 n) := by
  intro x hx
  simp only [be64, List.mem_cons, List.not_mem_nil, or_false] at hx
  rcases hx with rfl | rfl | rfl | rfl | rfl | rfl | rfl | rfl <;> omega

theorem block16_ctrBlock {nonce : List Nat} (hl : nonce.length = 12)
    (hB : Bytes nonce) (j : Nat) : Block16 (ctrBlock nonce j) :=
  ⟨by simp [ctrBlock, hl, be32_length],
   bytes_append hB (bytes_be32 _)⟩

theorem ctrBlock_inj_nonce {n n' : List Nat} (h : n ≠ n') (j : Nat) :
    ctrBlock n j ≠ ctrBlock n' j := by
  intro he
  exact h (List.append_cancel_right he)

theorem block16_lenBlock (n : Nat) : Block16 (lenBlock n) :=
  ⟨by simp [lenBlock, be64_length], bytes_append (bytes_be64 _) (bytes_be64 _)⟩

theorem block16_padBlock {l : List Nat} (hl : l.length ≤ 16) (hB : Bytes l) :
    Block16 (padBlock l) :=
  ⟨by simp [padBlock]; omega, bytes_append hB (bytes_replicate _ 0 (by omega))⟩

theorem keystream_length {E : List Nat → List Nat} (hE : IsBlockCipher E)
    {nonce : List Nat} (hl : nonce.length = 12) (hB : Bytes nonce) (n : Nat) :
    (keystream E nonce n).length = n := by
  have hall : ∀ k, (((List.range k).map fun i => E (ctrBlock nonce (2 + i))).flatten).length
      = 16 * k := by
    intro k
    induction k with
    | zero => simp
    | succ m ih =>
        rw [List.range_succ, List.map_append, List.flatten_append]
        simp only [List.length_append, ih, List.map_cons, List.map_nil,
          List.flatten_cons, List.flatten_nil, List.append_nil]
        have := (hE _ (block16_ctrBlock hl hB (2 + m))).1
        omega
  simp only [keystream, List.length_take, hall]
  omega

theorem bytes_keystream {E : List Nat → List Nat} (hE : IsBlockCipher E)
    {nonce : List Nat} (hl : nonce.length = 12) (hB : Bytes nonce) (n : Nat) :
    Bytes (keystream E nonce n) := by
  apply bytes_take
  intro x hx
  rcases List.mem_flatten.mp hx with ⟨blk, hblk, hxblk⟩
  rcases List.mem_map.mp hblk with ⟨i, _, rfl⟩
  exact (hE _ (block16_ctrBlock hl hB (2 + i))).2 x hxblk

/-! ### GHASH lemmas -/

/-- Overwriting position `i` with a genuinely different byte changes the list. -/
theorem list_set_ne_self {l : List Nat} :
    ∀ {i b : Nat} (hi : i < l.length), b ≠ l.get ⟨i, hi⟩ → l.set i b ≠ l := by
  induction l with
  | nil => intro i b hi; simp at hi
  | cons x xs ih =>
      intro i b hi hb
      cases i with
      | zero =>
          simp only [List.set_cons_zero]
          intro h
          exact hb (List.cons.injEq b xs x xs ▸ h).1
      | succ j =>
          simp only [List.set_cons_succ]
          intro h
          have hj : j < xs.length := by simpa using hi
          exact ih hj hb (List.cons.injEq x (xs.set j b) x xs ▸ h).2

theorem block16_xorB {a b : List Nat} (ha : Block16 a) (hb : Block16 b) :
    Block16 (xorB a b) :=
  ⟨by rw [xorB_length, ha.1, hb.1]; exact min_self 16, bytes_xorB ha.2 hb.2⟩

theorem ghashCore_nil (gmul : List Nat → List Nat → List Nat) (H Y : List Nat) :
    ghashCore gmul H Y [] = Y := by
  rw [ghashCore]
  simp

theorem ghashCore_ne_nil {l : List Nat} (hl : l ≠ [])
    (gmul : List Nat → List Nat → List Nat) (H Y : List Nat) :
    ghashCore gmul H Y l =
      ghashCore gmul H (gmul (xorB Y (padBlock (l.take 16))) H) (l.drop 16) := by
  conv_lhs => rw [ghashCore]
  rw [dif_neg hl]

theorem padBlock_length {l : List Nat} (h : l.length ≤ 16) :
    (padBlock l).length = 16 := by
  simp [padBlock]; omega

theorem padBlock_set {l : List Nat} {i : Nat} (h : i < l.length) (b : Nat) :
    padBlock (l.set i b) = (padBlock l).set i b := by
  simp only [padBlock, List.length_set]
  rw [List.set_append_left _ _ h]

theorem block16_ghash_chunk {gmul : List Nat → List Nat → List Nat}
    (hG : IsGFMul gmul) {H Y l : List Nat} (hH : Block16 H) (hY : Block16 Y)
    (hB : Bytes l) : Block16 (gmul (xorB Y (padBlock (l.take 16))) H) := by
  apply hG _ _ _ hH
  exact block16_xorB hY
    (block16_padBlock (by simp [List.length_take]) (bytes_take hB 16))

/-- The GHASH accumulator invariant: folding byte strings into a 16-byte
accumulator stays inside 16-byte blocks. -/
theorem ghashCore_block16 {gmul : List Nat → List Nat → List Nat}
    (hG : IsGFMul gmul) {H : List Nat} (hH : Block16 H) :
    ∀ n l Y, l.length ≤ n → Bytes l → Block16 Y →
      Block16 (ghashCore gmul H Y l) := by
  intro n
  induction n with
  | zero =>
      intro l Y hlen _ hY
      have hl : l = [] := List.eq_nil_of_length_eq_zero (by omega)
      rw [hl, ghashCore_nil]
      exact hY
  | succ m ih =>
      intro l Y hlen hB hY
      by_cases hl : l = []
      · rw [hl, ghashCore_nil]; exact hY
      · rw [ghashCore_ne_nil hl]
        apply ih
        · have : 0 < l.length := List.length_pos.mpr hl
          simp only [List.length_drop]; omega
        · exact bytes_drop hB 16
        · exact block16_ghash_chunk hG hH hY hB

/-- Distinct 16-byte accumulators stay distinct through the GHASH fold,
provided multiplication by `H` is cancellative. -/
theorem ghashCore_ne_of_acc_ne {gmul : List Nat → List Nat → List Nat}
    (hG : IsGFMul gmul) {H : List Nat} (hH : Block16 H)
    (hc : ∀ x y, Block16 x → Block16 y → gmul x H = gmul y H → x = y) :
    ∀ n l Y Y', l.length ≤ n → Bytes l → Block16 Y → Block16 Y' → Y ≠ Y' →
      ghashCore gmul H Y l ≠ ghashCore gmul H Y' l := by
  intro n
  induction n with
  | zero =>
      intro l Y Y' hlen _ _ _ hne
      have hl : l = [] := List.eq_nil_of_length_eq_zero (by omega)
      rw [hl, ghashCore_nil, ghashCore_nil]
      exact hne
  | succ m ih =>
      intro l Y Y' hlen hB hY hY' hne
      by_cases hl : l = []
      · rw [hl, ghashCore_nil, ghashCore_nil]
        exact hne
      · rw [ghashCore_ne_nil hl, ghashCore_ne_nil hl]
        have hX : Block16 (padBlock (l.take 16)) :=
          block16_padBlock (by simp [List.length_take]) (bytes_take hB 16)
        apply ih
        · have : 0 < l.length := List.length_pos.mpr hl
          simp only [List.length_drop]; omega
        · exact bytes_drop hB 16
        · exact block16_ghash_chunk hG hH hY hB
        · exact block16_ghash_chunk hG hH hY' hB
        · intro heq
          apply hne
          have hxor := hc _ _ (block16_xorB hY hX) (block16_xorB hY' hX) heq
          exact xorB_inj_left (by rw [hY.1, hX.1]) (by rw [hY'.1, hX.1]) hxor

/-- Changing a single byte of the GHASH input (at unchanged length) changes
the GHASH output, provided multiplication by `H` is cancellative. -/
theorem ghashCore_ne_set {gmul : List Nat → List Nat → List Nat}
    (hG : IsGFMul gmul) {H : List Nat} (hH : Block16 H)
    (hc : ∀ x y, Block16 x → Block16 y → gmul x H = gmul y H → x = y) :
    ∀ n l Y i b, l.length ≤ n → Bytes l → Block16 Y → b < 256 →
      (hi : i < l.length) → b ≠ l.get ⟨i, hi⟩ →
      ghashCore gmul H Y (l.set i b) ≠ ghashCore gmul H Y l := by
  intro n
  induction n with
  | zero =>
      intro l Y i b hlen _ _ _ hi _
      omega
  | succ m ih =>
      intro l Y i b hlen hB hY hb hi hbne
      have hl : l ≠ [] := by
        intro h; rw [h] at hi; simp at hi
      have hset : l.set i b ≠ [] := by
        intro h
        have h2 := congrArg List.length h
        rw [List.length_set, List.length_nil] at h2
        omega
      rw [ghashCore_ne_nil hset, ghashCore_ne_nil hl]
      by_cases hi16 : i < 16
      · -- the changed byte lies in the first block
        have htake : (l.set i b).take 16 = (l.take 16).set i b := List.set_take
        have hdrop : (l.set i b).drop 16 = l.drop 16 :=
          List.drop_set_of_lt b l hi16
        rw [htake, hdrop]
        have hilt : i < (l.take 16).length := by
          simp [List.length_take]; omega
        rw [padBlock_set hilt b]
        have hX : Block16 (padBlock (l.take 16)) :=
          block16_padBlock (by simp [List.length_take]) (bytes_take hB 16)
        have hXset : Block16 ((padBlock (l.take 16)).set i b) := by
          refine ⟨by simp [hX.1], bytes_set hX.2 hb i⟩
        have hiX : i < (padBlock (l.take 16)).length := by
          rw [hX.1]; omega
        have hgetX : (padBlock (l.take 16)).get ⟨i, hiX⟩ = l.get ⟨i, hi⟩ := by
          simp only [padBlock, List.get_eq_getElem]
          rw [List.getElem_append_left hilt]
          simp only [List.getElem_take]
        have hXne : (padBlock (l.take 16)).set i b ≠ padBlock (l.take 16) :=
          list_set_ne_self hiX (by rw [hgetX]; exact hbne)
        apply ghashCore_ne_of_acc_ne hG hH hc m
        · have : 0 < l.length := List.length_pos.mpr hl
          simp only [List.length_drop]; omega
        · exact bytes_drop hB 16
        · exact hG _ _ (block16_xorB hY hXset) hH
        · exact hG _ _ (block16_xorB hY hX) hH
        · intro heq
          apply hXne
          have hxor := hc _ _ (block16_xorB hY hXset) (block16_xorB hY hX) heq
          exact xorB_inj_right (by rw [hXset.1, hY.1]) (by rw [hX.1, hY.1]) hxor
      · -- the changed byte lies beyond the first block: same chunk, recurse
        have htake : (l.set i b).take 16 = l.take 16 := by
          rw [List.set_take]
          exact List.set_eq_of_length_le (by simp [List.length_take]; omega)
        have hdrop : (l.set i b).drop 16 = (l.drop 16).set (i - 16) b := by
          rw [List.drop_set]
          exact if_neg hi16
        rw [htake, hdrop]
        have hi' : i - 16 < (l.drop 16).length := by
          simp only [List.length_drop]; omega
        have hget : (l.drop 16).get ⟨i - 16, hi'⟩ = l.get ⟨i, hi⟩ := by
          simp only [List.get_eq_getElem, List.getElem_drop]
          congr 1
          omega
        apply ih
        · have : 0 < l.length := List.length_pos.mpr hl
          simp only [List.length_drop]; omega
        · exact bytes_drop hB 16
        · exact block16_ghash_chunk hG hH hY hB
        · exact hb
        · rw [hget]
          exact hbne

/-! ### Tag and Seal/Open lemmas -/

theorem block16_gcmTag {E : List Nat → List Nat}
    {gmul : List Nat → List Nat → List Nat} {nonce ct : List Nat}
    (hE : IsBlockCipher E) (hG : IsGFMul gmul) (hn : nonce.length = 12)
    (hnB : Bytes nonce) (hct : Bytes ct) : Block16 (gcmTag E gmul nonce ct) := by
  have hH : Block16 (E zeroBlock) := hE _ block16_zeroBlock
  have hY : Block16 (ghashCore gmul (E zeroBlock) zeroBlock ct) :=
    ghashCore_block16 hG hH ct.length ct zeroBlock le_rfl hct block16_zeroBlock
  have hS : Block16 (gmul (xorB (ghashCore gmul (E zeroBlock) zeroBlock ct)
      (lenBlock ct.length)) (E zeroBlock)) :=
    hG _ _ (block16_xorB hY (block16_lenBlock _)) hH
  exact block16_xorB hS (hE _ (block16_ctrBlock hn hnB 1))

/-- Tags under distinct nonces differ when the block cipher is injective. -/
theorem gcmTag_ne_of_nonce_ne {E : List Nat → List Nat}
    {gmul : List Nat → List Nat → List Nat} {n n' ct : List Nat}
    (hE : IsBlockCipher E) (hG : IsGFMul gmul)
    (hInj : Function.Injective E)
    (hn : n.length = 12) (hnB : Bytes n) (hn' : n'.length = 12)
    (hn'B : Bytes n') (hct : Bytes ct) (hne : n ≠ n') :
    gcmTag E gmul n ct ≠ gcmTag E gmul n' ct := by
  have hH : Block16 (E zeroBlock) := hE _ block16_zeroBlock
  have hY : Block16 (ghashCore gmul (E zeroBlock) zeroBlock ct) :=
    ghashCore_block16 hG hH ct.length ct zeroBlock le_rfl hct block16_zeroBlock
  have hS : Block16 (gmul (xorB (ghashCore gmul (E zeroBlock) zeroBlock ct)
      (lenBlock ct.length)) (E zeroBlock)) :=
    hG _ _ (block16_xorB hY (block16_lenBlock _)) hH
  intro heq
  apply hne
  have hEne : E (ctrBlock n 1) = E (ctrBlock n' 1) :=
    xorB_inj_right (b := E (ctrBlock n 1)) (c := E (ctrBlock n' 1))
      (by rw [(hE _ (block16_ctrBlock hn hnB 1)).1, hS.1])
      (by rw [(hE _ (block16_ctrBlock hn' hn'B 1)).1, hS.1]) heq
  have := hInj hEne
  exact List.append_cancel_right this

/-- Changing a single ciphertext byte changes the tag, when multiplication
by the hash subkey `H = E(0^128)` is cancellative. -/
theorem gcmTag_ne_of_ct_set {E : List Nat → List Nat}
    {gmul : List Nat → List Nat → List Nat} {nonce ct : List Nat} {i b : Nat}
    (hE : IsBlockCipher E) (hG : IsGFMul gmul)
    (hc : ∀ x y, Block16 x → Block16 y →
      gmul x (E zeroBlock) = gmul y (E zeroBlock) → x = y)
    (hn : nonce.length = 12) (hnB : Bytes nonce) (hct : Bytes ct)
    (hb : b < 256) (hi : i < ct.length) (hbne : b ≠ ct.get ⟨i, hi⟩) :
    gcmTag E gmul nonce (ct.set i b) ≠ gcmTag E gmul nonce ct := by
  have hH : Block16 (E zeroBlock) := hE _ block16_zeroBlock
  have hY : Block16 (ghashCore gmul (E zeroBlock) zeroBlock ct) :=
    ghashCore_block16 hG hH ct.length ct zeroBlock le_rfl hct block16_zeroBlock
  have hY' : Block16 (ghashCore gmul (E zeroBlock) zeroBlock (ct.set i b)) := by
    have := ghashCore_block16 hG hH ct.length (ct.set i b) zeroBlock
      (by simp) (bytes_set hct hb i) block16_zeroBlock
    exact this
  have hYne : ghashCore gmul (E zeroBlock) zeroBlock (ct.set i b) ≠
      ghashCore gmul (E zeroBlock) zeroBlock ct :=
    ghashCore_ne_set hG hH hc ct.length ct zeroBlock i b le_rfl hct
      block16_zeroBlock hb hi hbne
  have hSne : gmul (xorB (ghashCore gmul (E zeroBlock) zeroBlock (ct.set i b))
      (lenBlock (ct.set i b).length)) (E zeroBlock) ≠
      gmul (xorB (ghashCore gmul (E zeroBlock) zeroBlock ct)
      (lenBlock ct.length)) (E zeroBlock) := by
    rw [List.length_set]
    intro heq
    apply hYne
    have hxor := hc _ _ (block16_xorB hY' (block16_lenBlock _))
      (block16_xorB hY (block16_lenBlock _)) heq
    exact xorB_inj_left (by rw [hY'.1, (block16_lenBlock ct.length).1])
      (by rw [hY.1, (block16_lenBlock ct.length).1]) hxor
  simp only [gcmTag]
  intro heq
  apply hSne
  have hS' : Block16 (gmul (xorB (ghashCore gmul (E zeroBlock) zeroBlock
      (ct.set i b)) (lenBlock (ct.set i b).length)) (E zeroBlock)) :=
    hG _ _ (block16_xorB hY' (by rw [List.length_set]; exact block16_lenBlock _)) hH
  have hS : Block16 (gmul (xorB (ghashCore gmul (E zeroBlock) zeroBlock ct)
      (lenBlock ct.length)) (E zeroBlock)) :=
    hG _ _ (block16_xorB hY (block16_lenBlock _)) hH
  exact xorB_inj_left
    (by rw [hS'.1, (hE _ (block16_ctrBlock hn hnB 1)).1])
    (by rw [hS.1, (hE _ (block16_ctrBlock hn hnB 1)).1]) heq

theorem gcmSeal_ct_length {E : List Nat → List Nat} (hE : IsBlockCipher E)
    {nonce : List Nat} (hn : nonce.length = 12) (hnB : Bytes nonce)
    (p : List Nat) : (xorB p (keystream E nonce p.length)).length = p.length := by
  rw [xorB_length, keystream_length hE hn hnB]
  exact min_self _

theorem gcmSeal_length {E : List Nat → List Nat}
    {gmul : List Nat → List Nat → List Nat} {nonce p : List Nat}
    (hE : IsBlockCipher E) (hG : IsGFMul gmul) (hn : nonce.length = 12)
    (hnB : Bytes nonce) (hp : Bytes p) :
    (gcmSeal E gmul nonce p).length = p.length + 16 := by
  have hct : Bytes (xorB p (keystream E nonce p.length)) :=
    bytes_xorB hp (bytes_keystream hE hn hnB _)
  simp only [gcmSeal, List.length_append, gcmSeal_ct_length hE hn hnB,
    (block16_gcmTag hE hG hn hnB hct).1]

theorem bytes_gcmSeal {E : List Nat → List Nat}
    {gmul : List Nat → List Nat → List Nat} {nonce p : List Nat}
    (hE : IsBlockCipher E) (hG : IsGFMul gmul) (hn : nonce.length = 12)
    (hnB : Bytes nonce) (hp : Bytes p) : Bytes (gcmSeal E gmul nonce p) := by
  have hct : Bytes (xorB p (keystream E nonce p.length)) :=
    bytes_xorB hp (bytes_keystream hE hn hnB _)
  exact bytes_append hct (block16_gcmTag hE hG hn hnB hct).2

/-- Opening a sealed message under the same nonce recovers the plaintext. -/
theorem gcmOpen_gcmSeal {E : List Nat → List Nat}
    {gmul : List Nat → List Nat → List Nat} {nonce p : List Nat}
    (hE : IsBlockCipher E) (hG : IsGFMul gmul) (hn : nonce.length = 12)
    (hnB : Bytes nonce) (hp : Bytes p) :
    gcmOpen E gmul nonce (gcmSeal E gmul nonce p) = some p := by
  have hks : (keystream E nonce p.length).length = p.length :=
    keystream_length hE hn hnB _
  have hct : (xorB p (keystream E nonce p.length)).length = p.length :=
    gcmSeal_ct_length hE hn hnB p
  have hctB : Bytes (xorB p (keystream E nonce p.length)) :=
    bytes_xorB hp (bytes_keystream hE hn hnB _)
  have htag : (gcmTag E gmul nonce (xorB p (keystream E nonce p.length))).length = 16 :=
    (block16_gcmTag hE hG hn hnB hctB).1
  simp only [gcmOpen, gcmSeal]
  rw [if_neg (by simp only [List.length_append, tagSize, htag]; omega)]
  have hsub : (xorB p (keystream E nonce p.length) ++
      gcmTag E gmul nonce (xorB p (keystream E nonce p.length))).length - tagSize
      = (xorB p (keystream E nonce p.length)).length := by
    simp only [List.length_append, tagSize, htag]
    omega
  rw [hsub, List.take_left, List.drop_left, if_pos rfl, hct]
  rw [xorB_xorB (by rw [hks])]

/-- `gcmOpen` on data ending in a 16-byte tag: the tag check decides. -/
theorem gcmOpen_append {E : List Nat → List Nat}
    {gmul : List Nat → List Nat → List Nat} {nonce ctx tagx : List Nat}
    (h16 : tagx.length = 16) :
    gcmOpen E gmul nonce (ctx ++ tagx) =
      if tagx = gcmTag E gmul nonce ctx then
        some (xorB ctx (keystream E nonce ctx.length))
      else none := by
  simp only [gcmOpen]
  rw [if_neg (by simp only [List.length_append, tagSize, h16]; omega)]
  have hsub : (ctx ++ tagx).length - tagSize = ctx.length := by
    simp only [List.length_append, tagSize, h16]
    omega
  rw [hsub, List.take_left, List.drop_left]

/-! ### The claims -/

/-- C3 (first half): a password always verifies against its own hash. -/
theorem claim3_verify_password (idKey : List Nat → List Nat → List Nat)
    (pw wrongPw salt : List Nat) (hk : Bytes (idKey pw salt)) :
    VerifyPassword idKey pw salt (HashPassword idKey pw salt) = true ∧
    (idKey wrongPw salt ≠ idKey pw salt →
      VerifyPassword idKey wrongPw salt (HashPassword idKey pw salt) = false) := by
  constructor
  · simp only [VerifyPassword, HashPassword, decodeB64_encodeB64 _ hk,
      constantTimeCompare, if_pos rfl]
    simp
  · intro hne
    simp only [VerifyPassword, HashPassword, decodeB64_encodeB64 _ hk,
      constantTimeCompare]
    by_cases hl : (idKey wrongPw salt).length = (idKey pw salt).length
    · rw [if_pos hl, if_neg hne]
      simp
    · rw [if_neg hl]
      simp

/-- C3 witness: a concrete key-derivation function, password, wrong
password and salt satisfying all hypotheses. -/
theorem claim3_verify_password_witness :
    VerifyPassword (fun p _ => [p.length % 256]) [0] []
      (HashPassword (fun p _ => [p.length % 256]) [0] []) = true ∧
    VerifyPassword (fun p _ => [p.length % 256]) [7, 7] []
      (HashPassword (fun p _ => [p.length % 256]) [0] []) = false := by
  have h := claim3_verify_password (fun p _ => [p.length % 256]) [0] [7, 7] []
    (by decide)
  exact ⟨h.1, h.2 (by decide)⟩

/-- C4: the persisted verification hash is exactly the base64 encoding of
the encryption key the vault stores for the same password and salt. -/
theorem claim4_hash_is_encryption_key (idKey : List Nat → List Nat → List Nat)
    (password salt : List Nat) :
    HashPassword idKey password salt = encodeB64 (NewVault idKey password salt).key := rfl

/-- C6: the empty string encrypts to the empty string — under every vault,
cipher and nonce, so without invoking the cipher — and decrypts to it. -/
theorem claim6_empty_roundtrip (aes gmul : List Nat → List Nat → List Nat)
    (v : Vault) (nonce : List Nat) :
    Vault.encrypt aes gmul v nonce [] = [] ∧
    Vault.decrypt aes gmul v [] = .ok [] := by
  constructor
  · simp [Vault.encrypt]
  · simp [Vault.decrypt]

/-- C7: a stored hash that is not valid base64 makes `VerifyPassword`
return `false` rather than an error. -/
theorem claim7_invalid_stored_hash (idKey : List Nat → List Nat → List Nat)
    (password salt storedHash : List Nat) (h : decodeB64 storedHash = none) :
    VerifyPassword idKey password salt storedHash = false := by
  simp only [VerifyPassword, h]

/-- C7 witness: `%` is not valid base64. -/
theorem claim7_invalid_stored_hash_witness :
    VerifyPassword (fun p _ => [p.length % 256]) [0] [] [37] = false :=
  claim7_invalid_stored_hash (fun p _ => [p.length % 256]) [0] [] [37] (by decide)

/-- C9: decoded data long enough for the nonce but too short for a full
16-byte tag fails as `decryptionFailed`, not as a malformed blob: the
length guard only compares against the nonce size. -/
theorem claim9_short_tag_is_decryption_failure
    (aes gmul : List Nat → List Nat → List Nat) (v : Vault)
    (encoded data : List Nat) (hdec : decodeB64 encoded = some data)
    (h12 : nonceSize ≤ data.length) (h28 : data.length < 28) :
    Vault.decrypt aes gmul v encoded = .error .decryptionFailed := by
  have hne : encoded ≠ [] := by
    intro h
    rw [h] at hdec
    have : data = [] := by
      have : some ([] : List Nat) = some data := hdec
      exact (Option.some.injEq _ _ ▸ this).symm
    rw [this] at h12
    simp [nonceSize] at h12
  simp only [Vault.decrypt, if_neg hne, hdec]
  rw [if_neg (by omega)]
  have hopen : gcmOpen (aes v.key) gmul (data.take nonceSize) (data.drop nonceSize)
      = none := by
    simp only [gcmOpen]
    rw [if_pos]
    simp only [List.length_drop, nonceSize, tagSize]
    omega
  rw [hopen]

/-- C9 witness: a 12-byte decoded blob (nonce only, no tag at all). -/
theorem claim9_short_tag_is_decryption_failure_witness :
    Vault.decrypt (fun _ b => b) xorB ⟨List.replicate 32 0⟩
      (encodeB64 (List.replicate 12 0)) = .error .decryptionFailed :=
  claim9_short_tag_is_decryption_failure (fun _ b => b) xorB ⟨List.replicate 32 0⟩
    (encodeB64 (List.replicate 12 0)) (List.replicate 12 0)
    (decodeB64_encodeB64 _ (by decide)) (by decide) (by decide)

/-- C1: decrypting the result of encrypting a non-empty plaintext under the
same vault key returns the plaintext, for every 12-byte nonce draw. -/
theorem claim1_decrypt_encrypt_roundtrip
    (aes gmul : List Nat → List Nat → List Nat) (v : Vault) (nonce p : List Nat)
    (hE : IsBlockCipher (aes v.key)) (hG : IsGFMul gmul)
    (hn : nonce.length = 12) (hnB : Bytes nonce) (hp : Bytes p) (hpne : p ≠ []) :
    Vault.decrypt aes gmul v (Vault.encrypt aes gmul v nonce p) = .ok p := by
  have hsB : Bytes (gcmSeal (aes v.key) gmul nonce p) := bytes_gcmSeal hE hG hn hnB hp
  have hblobB : Bytes (nonce ++ gcmSeal (aes v.key) gmul nonce p) :=
    bytes_append hnB hsB
  have hslen : (gcmSeal (aes v.key) gmul nonce p).length = p.length + 16 :=
    gcmSeal_length hE hG hn hnB hp
  have hblobne : nonce ++ gcmSeal (aes v.key) gmul nonce p ≠ [] := by
    intro h
    have := congrArg List.length h
    rw [List.length_append, hn, List.length_nil] at this
    omega
  simp only [Vault.encrypt, if_neg hpne, Vault.decrypt,
    if_neg (encodeB64_ne_nil hblobne), decodeB64_encodeB64 _ hblobB]
  rw [if_neg (by rw [List.length_append, hn, hslen]; simp [nonceSize])]
  rw [List.take_left' (by rw [hn]; rfl), List.drop_left' (by rw [hn]; rfl)]
  rw [gcmOpen_gcmSeal hE hG hn hnB hp]

/-- C1 witness: a concrete cipher instance, vault, nonce and plaintext. -/
theorem claim1_decrypt_encrypt_roundtrip_witness :
    Vault.decrypt (fun _ b => b) xorB ⟨List.replicate 32 0⟩
      (Vault.encrypt (fun _ b => b) xorB ⟨List.replicate 32 0⟩
        (List.replicate 12 0) [1, 2, 3]) = .ok [1, 2, 3] :=
  claim1_decrypt_encrypt_roundtrip (fun _ b => b) xorB ⟨List.replicate 32 0⟩
    (List.replicate 12 0) [1, 2, 3] (fun _ h => h)
    (fun x y hx hy => block16_xorB hx hy) (by decide) (by decide) (by decide)
    (by decide)

/-- C10: the blob a successful encryption stores decodes to exactly
`len(plaintext) + 28` bytes: 12-byte nonce, same-length ciphertext, 16-byte
tag — so blob length reveals plaintext length. -/
theorem claim10_blob_length
    (aes gmul : List Nat → List Nat → List Nat) (v : Vault) (nonce p : List Nat)
    (hE : IsBlockCipher (aes v.key)) (hG : IsGFMul gmul)
    (hn : nonce.length = 12) (hnB : Bytes nonce) (hp : Bytes p) (hpne : p ≠ []) :
    ∃ data, decodeB64 (Vault.encrypt aes gmul v nonce p) = some data ∧
      data.length = p.length + 28 := by
  refine ⟨nonce ++ gcmSeal (aes v.key) gmul nonce p, ?_, ?_⟩
  · rw [Vault.encrypt, if_neg hpne]
    exact decodeB64_encodeB64 _ (bytes_append hnB (bytes_gcmSeal hE hG hn hnB hp))
  · rw [List.length_append, hn, gcmSeal_length hE hG hn hnB hp]
    omega

/-- C10 witness. -/
theorem claim10_blob_length_witness :
    ∃ data, decodeB64 (Vault.encrypt (fun _ b => b) xorB ⟨List.replicate 32 0⟩
      (List.replicate 12 0) [1, 2, 3]) = some data ∧ data.length = 3 + 28 :=
  claim10_blob_length (fun _ b => b) xorB ⟨List.replicate 32 0⟩
    (List.replicate 12 0) [1, 2, 3] (fun _ h => h)
    (fun x y hx hy => block16_xorB hx hy) (by decide) (by decide) (by decide)
    (by decide)

/-- C5: on non-empty input, `Decrypt` fails with a `MalformedBlob`-category
error exactly when the input is invalid base64 or decodes to fewer than 12
bytes, and with the single `decryptionFailed` error exactly when GCM
authentication (`gcmOpen`) rejects; no other error arises. -/
theorem claim5_error_taxonomy (aes gmul : List Nat → List Nat → List Nat)
    (v : Vault) (encoded : List Nat) (hne : encoded ≠ []) :
    ((∃ e, Vault.decrypt aes gmul v encoded = .error e ∧ e.isMalformedBlob = true) ↔
      decodeB64 encoded = none ∨
        ∃ data, decodeB64 encoded = some data ∧ data.length < nonceSize) ∧
    (Vault.decrypt aes gmul v encoded = .error .decryptionFailed ↔
      ∃ data, decodeB64 encoded = some data ∧ nonceSize ≤ data.length ∧
        gcmOpen (aes v.key) gmul (data.take nonceSize) (data.drop nonceSize) = none) := by
  cases hdec : decodeB64 encoded with
  | none =>
      have hval : Vault.decrypt aes gmul v encoded = .error .invalidBase64 := by
        simp only [Vault.decrypt, if_neg hne, hdec]
      rw [hval]
      constructor
      · constructor
        · intro _; exact Or.inl rfl
        · intro _; exact ⟨.invalidBase64, rfl, rfl⟩
      · constructor
        · intro h; simp at h
        · rintro ⟨data, hd, -, -⟩; cases hd
  | some data =>
      by_cases hlt : data.length < nonceSize
      · have hval : Vault.decrypt aes gmul v encoded = .error .ciphertextTooShort := by
          simp only [Vault.decrypt, if_neg hne, hdec, if_pos hlt]
        rw [hval]
        constructor
        · constructor
          · intro _; exact Or.inr ⟨data, rfl, hlt⟩
          · intro _; exact ⟨.ciphertextTooShort, rfl, rfl⟩
        · constructor
          · intro h; simp at h
          · rintro ⟨data', hd, hge, -⟩
            rw [Option.some.injEq] at hd
            subst hd
            omega
      · cases hop : gcmOpen (aes v.key) gmul (data.take nonceSize) (data.drop nonceSize) with
        | none =>
            have hval : Vault.decrypt aes gmul v encoded = .error .decryptionFailed := by
              simp only [Vault.decrypt, if_neg hne, hdec, if_neg hlt, hop]
            rw [hval]
            constructor
            · constructor
              · rintro ⟨e, he, hmal⟩
                rw [Except.error.injEq] at he
                rw [← he] at hmal
                cases hmal
              · rintro (h | ⟨data', hd, hlt'⟩)
                · cases h
                · rw [Option.some.injEq] at hd
                  subst hd
                  omega
            · constructor
              · intro _; exact ⟨data, rfl, by omega, hop⟩
              · intro _; rfl
        | some plaintext =>
            have hval : Vault.decrypt aes gmul v encoded = .ok plaintext := by
              simp only [Vault.decrypt, if_neg hne, hdec, if_neg hlt, hop]
            rw [hval]
            constructor
            · constructor
              · rintro ⟨e, he, -⟩
                cases he
              · rintro (h | ⟨data', hd, hlt'⟩)
                · cases h
                · rw [Option.some.injEq] at hd
                  subst hd
                  omega
            · constructor
              · intro h; cases h
              · rintro ⟨data', hd, -, hop'⟩
                rw [Option.some.injEq] at hd
                subst hd
                rw [hop] at hop'
                cases hop'

/-- C5 witness: the one-character input `%` is invalid base64 and lands in
the `MalformedBlob` category. -/
theorem claim5_error_taxonomy_witness :
    (∃ e, Vault.decrypt (fun _ b => b) xorB ⟨List.replicate 32 0⟩ [37] = .error e ∧
      e.isMalformedBlob = true) ↔
      decodeB64 [37] = none ∨
        ∃ data, decodeB64 [37] = some data ∧ data.length < nonceSize :=
  (claim5_error_taxonomy (fun _ b => b) xorB ⟨List.replicate 32 0⟩ [37]
    (by decide)).1

/-- C8: the unlock flow retains a vault only when password verification
succeeds, and a failed verification returns `false` with no error and
leaves the application state — in particular the vault — unchanged. -/
theorem claim8_unlock_only_on_verify (idKey : List Nat → List Nat → List Nat)
    (a : App) (pw : List Nat) :
    (∀ salt, decodeB64 (a.config "master_salt") = some salt →
      VerifyPassword idKey pw salt (a.config "master_hash") = false →
      a.unlockVault idKey pw = (.ok false, a)) ∧
    ((a.unlockVault idKey pw).2.vault ≠ a.vault →
      ∃ salt, decodeB64 (a.config "master_salt") = some salt ∧
        VerifyPassword idKey pw salt (a.config "master_hash") = true ∧
        (a.unlockVault idKey pw).2.vault = some (NewVault idKey pw salt)) := by
  constructor
  · intro salt hdec hver
    simp only [App.unlockVault, hdec, hver]
    rfl
  · intro hch
    cases hdec : decodeB64 (a.config "master_salt") with
    | none =>
        have hval : a.unlockVault idKey pw = (.error .saltDecode, a) := by
          simp only [App.unlockVault, hdec]
        rw [hval] at hch
        exact absurd rfl hch
    | some salt =>
        by_cases hver : VerifyPassword idKey pw salt (a.config "master_hash") = true
        · have hval : a.unlockVault idKey pw =
              (.ok true, { a with vault := some (NewVault idKey pw salt) }) := by
            simp only [App.unlockVault, hdec, if_pos hver]
          exact ⟨salt, rfl, hver, by rw [hval]⟩
        · have hval : a.unlockVault idKey pw = (.ok false, a) := by
            simp only [App.unlockVault, hdec, if_neg hver]
          rw [hval] at hch
          exact absurd rfl hch

/-- C8 witness: a wrong password is rejected as `(false, nil)` with the
state unchanged. -/
theorem claim8_unlock_only_on_verify_witness :
    App.unlockVault (fun p _ => [p.length % 256])
      ⟨fun k => if k = "master_salt" then encodeB64 [5]
        else if k = "master_hash" then encodeB64 [9] else [], none⟩ [0] =
      (.ok false,
        ⟨fun k => if k = "master_salt" then encodeB64 [5]
          else if k = "master_hash" then encodeB64 [9] else [], none⟩) :=
  (claim8_unlock_only_on_verify (fun p _ => [p.length % 256])
    ⟨fun k => if k = "master_salt" then encodeB64 [5]
      else if k = "master_hash" then encodeB64 [9] else [], none⟩ [0]).1
    [5] (by decide) (by decide)

/-! ### Tamper detection: a flipped byte in nonce, ciphertext or tag -/

theorem gcmOpen_flip_nonce {E : List Nat → List Nat}
    {gmul : List Nat → List Nat → List Nat} {nonce ct : List Nat} {i b : Nat}
    (hE : IsBlockCipher E) (hG : IsGFMul gmul) (hInj : Function.Injective E)
    (hn : nonce.length = 12) (hnB : Bytes nonce) (hctB : Bytes ct)
    (hb : b < 256) (hiN : i < nonce.length) (hbne : b ≠ nonce.get ⟨i, hiN⟩) :
    gcmOpen E gmul (nonce.set i b) (ct ++ gcmTag E gmul nonce ct) = none := by
  have hcond : ¬(gcmTag E gmul nonce ct = gcmTag E gmul (nonce.set i b) ct) := by
    intro h
    have hnne : nonce.set i b ≠ nonce := list_set_ne_self hiN hbne
    exact gcmTag_ne_of_nonce_ne hE hG hInj (by rw [List.length_set]; exact hn)
      (bytes_set hnB hb i) hn hnB hctB hnne h.symm
  rw [gcmOpen_append (block16_gcmTag hE hG hn hnB hctB).1, if_neg hcond]

theorem gcmOpen_flip_ct {E : List Nat → List Nat}
    {gmul : List Nat → List Nat → List Nat} {nonce ct : List Nat} {j b : Nat}
    (hE : IsBlockCipher E) (hG : IsGFMul gmul)
    (hc : ∀ x y, Block16 x → Block16 y →
      gmul x (E zeroBlock) = gmul y (E zeroBlock) → x = y)
    (hn : nonce.length = 12) (hnB : Bytes nonce) (hctB : Bytes ct)
    (hb : b < 256) (hj : j < ct.length) (hbne : b ≠ ct.get ⟨j, hj⟩) :
    gcmOpen E gmul nonce (ct.set j b ++ gcmTag E gmul nonce ct) = none := by
  have hcond : ¬(gcmTag E gmul nonce ct = gcmTag E gmul nonce (ct.set j b)) := by
    intro h
    exact gcmTag_ne_of_ct_set hE hG hc hn hnB hctB hb hj hbne h.symm
  rw [gcmOpen_append (block16_gcmTag hE hG hn hnB hctB).1, if_neg hcond]

theorem gcmOpen_flip_tag {E : List Nat → List Nat}
    {gmul : List Nat → List Nat → List Nat} {nonce ct : List Nat} {k b : Nat}
    (hE : IsBlockCipher E) (hG : IsGFMul gmul)
    (hn : nonce.length = 12) (hnB : Bytes nonce) (hctB : Bytes ct)
    (hk : k < (gcmTag E gmul nonce ct).length)
    (hbne : b ≠ (gcmTag E gmul nonce ct).get ⟨k, hk⟩) :
    gcmOpen E gmul nonce (ct ++ (gcmTag E gmul nonce ct).set k b) = none := by
  have h16 : ((gcmTag E gmul nonce ct).set k b).length = 16 := by
    rw [List.length_set]
    exact (block16_gcmTag hE hG hn hnB hctB).1
  rw [gcmOpen_append h16, if_neg (list_set_ne_self hk hbne)]

/-- C2: flipping any single byte of a valid blob's base64-decoded bytes and
re-encoding makes decryption fail with `decryptionFailed` — never return
corrupted plaintext — provided the block cipher is injective (AES is a
permutation of blocks) and multiplication by the hash subkey `H = E(0^128)`
is cancellative (true in GF(2^128) whenever `H ≠ 0`). -/
theorem claim2_tamper_detection
    (aes gmul : List Nat → List Nat → List Nat) (v : Vault)
    (nonce p : List Nat) (i b : Nat)
    (hE : IsBlockCipher (aes v.key)) (hG : IsGFMul gmul)
    (hInj : Function.Injective (aes v.key))
    (hc : ∀ x y, Block16 x → Block16 y →
      gmul x (aes v.key zeroBlock) = gmul y (aes v.key zeroBlock) → x = y)
    (hn : nonce.length = 12) (hnB : Bytes nonce) (hp : Bytes p) (hpne : p ≠ [])
    (hb : b < 256)
    (hi : i < (nonce ++ gcmSeal (aes v.key) gmul nonce p).length)
    (hbne : b ≠ (nonce ++ gcmSeal (aes v.key) gmul nonce p).get ⟨i, hi⟩) :
    Vault.decrypt aes gmul v
      (encodeB64 ((nonce ++ gcmSeal (aes v.key) gmul nonce p).set i b)) =
      .error .decryptionFailed := by
  simp only [gcmSeal] at hi hbne ⊢
  have hctB : Bytes (xorB p (keystream (aes v.key) nonce p.length)) :=
    bytes_xorB hp (bytes_keystream hE hn hnB _)
  have htagB : Block16 (gcmTag (aes v.key) gmul nonce
      (xorB p (keystream (aes v.key) nonce p.length))) :=
    block16_gcmTag hE hG hn hnB hctB
  have hdB : Bytes ((nonce ++ (xorB p (keystream (aes v.key) nonce p.length) ++
      gcmTag (aes v.key) gmul nonce
        (xorB p (keystream (aes v.key) nonce p.length)))).set i b) :=
    bytes_set (bytes_append hnB (bytes_append hctB htagB.2)) hb i
  have hdne : (nonce ++ (xorB p (keystream (aes v.key) nonce p.length) ++
      gcmTag (aes v.key) gmul nonce
        (xorB p (keystream (aes v.key) nonce p.length)))).set i b ≠ [] := by
    intro h
    have h2 := congrArg List.length h
    rw [List.length_set, List.length_nil, List.length_append, hn] at h2
    omega
  simp only [Vault.decrypt, if_neg (encodeB64_ne_nil hdne),
    decodeB64_encodeB64 _ hdB]
  rw [if_neg (by
    rw [List.length_set, List.length_append, hn]
    simp only [nonceSize]
    omega)]
  suffices hopen : gcmOpen (aes v.key) gmul
      (((nonce ++ (xorB p (keystream (aes v.key) nonce p.length) ++
        gcmTag (aes v.key) gmul nonce
          (xorB p (keystream (aes v.key) nonce p.length)))).set i b).take nonceSize)
      (((nonce ++ (xorB p (keystream (aes v.key) nonce p.length) ++
        gcmTag (aes v.key) gmul nonce
          (xorB p (keystream (aes v.key) nonce p.length)))).set i b).drop nonceSize)
      = none by
    rw [hopen]
  rcases Nat.lt_or_ge i nonce.length with hiN | hgeN
  · -- flipped byte inside the prepended nonce
    have hgi : (nonce ++ (xorB p (keystream (aes v.key) nonce p.length) ++
        gcmTag (aes v.key) gmul nonce
          (xorB p (keystream (aes v.key) nonce p.length)))).get ⟨i, hi⟩ =
        nonce.get ⟨i, hiN⟩ := by
      simp only [List.get_eq_getElem]
      exact List.getElem_append_left hiN
    rw [List.set_append_left i b hiN,
      List.take_left' (by rw [List.length_set]; exact hn),
      List.drop_left' (by rw [List.length_set]; exact hn)]
    exact gcmOpen_flip_nonce hE hG hInj hn hnB hctB hb hiN (hgi ▸ hbne)
  · rw [List.set_append_right i b hgeN,
      List.take_left' (show nonce.length = nonceSize from hn),
      List.drop_left' (show nonce.length = nonceSize from hn)]
    rcases Nat.lt_or_ge (i - nonce.length)
        (xorB p (keystream (aes v.key) nonce p.length)).length with hj | hgeC
    · -- flipped byte inside the ciphertext
      have hgi : (nonce ++ (xorB p (keystream (aes v.key) nonce p.length) ++
          gcmTag (aes v.key) gmul nonce
            (xorB p (keystream (aes v.key) nonce p.length)))).get ⟨i, hi⟩ =
          (xorB p (keystream (aes v.key) nonce p.length)).get
            ⟨i - nonce.length, hj⟩ := by
        simp only [List.get_eq_getElem]
        rw [List.getElem_append_right hgeN]
        exact List.getElem_append_left hj
      rw [List.set_append_left _ b hj]
      exact gcmOpen_flip_ct hE hG hc hn hnB hctB hb hj (hgi ▸ hbne)
    · -- flipped byte inside the authentication tag
      have hk : i - nonce.length -
          (xorB p (keystream (aes v.key) nonce p.length)).length <
          (gcmTag (aes v.key) gmul nonce
            (xorB p (keystream (aes v.key) nonce p.length))).length := by
        have h2 := hi
        rw [List.length_append, List.length_append] at h2
        omega
      have hgi : (nonce ++ (xorB p (keystream (aes v.key) nonce p.length) ++
          gcmTag (aes v.key) gmul nonce
            (xorB p (keystream (aes v.key) nonce p.length)))).get ⟨i, hi⟩ =
          (gcmTag (aes v.key) gmul nonce
            (xorB p (keystream (aes v.key) nonce p.length))).get
            ⟨i - nonce.length -
              (xorB p (keystream (aes v.key) nonce p.length)).length, hk⟩ := by
        simp only [List.get_eq_getElem]
        rw [List.getElem_append_right hgeN]
        exact List.getElem_append_right hgeC
      rw [List.set_append_right _ b hgeC]
      exact gcmOpen_flip_tag hE hG hn hnB hctB hk (hgi ▸ hbne)

/-- C2 witness: flipping byte 0 (a nonce byte) of a concrete blob. -/
theorem claim2_tamper_detection_witness :
    Vault.decrypt (fun _ b => b) xorB ⟨List.replicate 32 0⟩
      (encodeB64 ((List.replicate 12 0 ++
        gcmSeal (fun b => b) xorB (List.replicate 12 0) [1, 2, 3]).set 0 1)) =
      .error .decryptionFailed := by
  have hi : 0 < (List.replicate 12 0 ++
      gcmSeal (fun b => b) xorB (List.replicate 12 0) [1, 2, 3]).length := by
    rw [List.length_append]
    simp
  have hget : (List.replicate 12 0 ++
      gcmSeal (fun b => b) xorB (List.replicate 12 0) [1, 2, 3]).get ⟨0, hi⟩
      = 0 := by
    simp only [List.get_eq_getElem]
    rw [List.getElem_append_left (by simp)]
    simp
  exact claim2_tamper_detection (fun _ b => b) xorB ⟨List.replicate 32 0⟩
    (List.replicate 12 0) [1, 2, 3] 0 1 (fun _ h => h)
    (fun x y hx hy => block16_xorB hx hy) (fun _ _ h => h)
    (fun x y hx hy h => xorB_inj_left
      (hx.1.trans (by simp [zeroBlock]))
      (hy.1.trans (by simp [zeroBlock])) h)
    (by simp) (by decide) (by decide) (by decide) (by decide) hi
    (by rw [hget]; decide)

end MyBench
